import Mathlib

/-!
Verification of the naming / sequencing / provisioning engine of the
nautobot-docker-compose jobs repository.

The two source files under scrutiny are `jobs/create_switch.py`
(class `CreateSwitch`: hierarchy name composition, sequence allocation,
name normalization and validation, provisioning run) and
`jobs/RenameVCMembers.py` (class `RenameVCMembers`: pattern-guarded
cluster rename cascade).

Python strings are embedded as `List Char`.  Python regular-expression
operations of the source are translated into explicit structural
character-list functions; every such translation is documented at the
definition it concerns.  Character classes of the source's regexes are
ASCII (`[A-Za-z0-9]`, `[a-z0-9]`, `-`, `.`), so ASCII-level modelling of
case folding (`str.lower`, `re.IGNORECASE`) is exact on every character
the functions can actually see.  The Django ORM store consulted and
mutated by the jobs is embedded as explicit record/list state, and each
job's `run` is a pure function from inputs and store to an outcome
record that includes which error (if any) was raised and which records
were created or modified.
-/

namespace NautobotJobs

/-- The `[A-Za-z0-9]` test, as in the source regexes (ASCII ranges). -/
def is_alnum (c : Char) : Bool :=
  (65 ≤ c.toNat && c.toNat ≤ 90) || (97 ≤ c.toNat && c.toNat ≤ 122) ||
  (48 ≤ c.toNat && c.toNat ≤ 57)

/-- The `[A-Za-z0-9\-]` test: the character class kept by the normalization
step `re.sub(r'[^A-Za-z0-9\-]', '', base)` of `_suggest_name`. -/
def is_allowed (c : Char) : Bool :=
  is_alnum c || c.toNat == 45

/-- The `[0-9]` test (`\d` of the source regexes, ASCII model). -/
def is_digit_ch (c : Char) : Bool :=
  48 ≤ c.toNat && c.toNat ≤ 57

/-- The `[a-z0-9]` test of the rename-pattern regex. -/
def is_lower_alnum (c : Char) : Bool :=
  (97 ≤ c.toNat && c.toNat ≤ 122) || (48 ≤ c.toNat && c.toNat ≤ 57)

/-- The hyphen test `c == '-'`. -/
def is_hy (c : Char) : Bool :=
  c.toNat == 45

/-- Whitespace test for Python `str.strip()` (the source only ever
strips form-field text, where the relevant whitespace is ASCII). -/
def is_ws (c : Char) : Bool :=
  c = ' ' || c = '\t' || c = '\n' || c = '\r'

/-- Remove a trailing run of characters satisfying `p` (structural
counterpart of the right half of Python `str.strip`). -/
def drop_trailing (p : Char → Bool) : List Char → List Char
  | [] => []
  | c :: cs =>
    match drop_trailing p cs with
    | [] => if p c then [] else [c]
    | r => c :: r

/-- Python `s.strip(chars)`: remove leading and trailing characters
satisfying `p`. -/
def trim_by (p : Char → Bool) (l : List Char) : List Char :=
  drop_trailing p (l.dropWhile p)

/-- Translation of `re.sub(r'[^A-Za-z0-9\-]', '', s)`: keep the allowed characters. -/
def strip_disallowed (l : List Char) : List Char :=
  l.filter is_allowed

/-- Accumulator pass of `collapse_hyphens`; the flag records whether the
previous kept character was a hyphen already emitted for the current
hyphen run. -/
def collapse_aux : Bool → List Char → List Char
  | _, [] => []
  | prevHy, c :: cs =>
    if is_hy c then
      if prevHy then collapse_aux true cs
      else '-' :: collapse_aux true cs
    else c :: collapse_aux false cs

/-- Translation of `re.sub(r'-{2,}', '-', s)`: each maximal run of hyphens becomes a
single hyphen (a run of length one is left alone, so this is exactly
the source's replacement of two-or-more-hyphen runs). -/
def collapse_hyphens (l : List Char) : List Char :=
  collapse_aux false l

/-- Python `str.lower` restricted to ASCII, which is `Char.toLower`;
every character this is applied to in the model has already been
filtered to `[A-Za-z0-9\-]`, on which ASCII lowering is exact. -/
def lower_all (l : List Char) : List Char :=
  l.map Char.toLower

/-- Lines 172-174 of `create_switch.py` (`_suggest_name`): strip the
characters outside `[A-Za-z0-9\-]`, collapse repeated hyphens, strip
leading/trailing hyphens, then lower-case. -/
def normalize_name (l : List Char) : List Char :=
  lower_all (trim_by is_hy (collapse_hyphens (strip_disallowed l)))

/-- No two adjacent hyphens. -/
def no_double_hy : List Char → Bool
  | [] => true
  | c :: cs =>
    match cs with
    | [] => true
    | d :: _ => (!(is_hy c && is_hy d)) && no_double_hy cs

/-- The head, if any, is not a hyphen. -/
def head_not_hy : List Char → Bool
  | [] => true
  | c :: _ => !(is_hy c)

/-- The last character, if any, is not a hyphen. -/
def last_not_hy : List Char → Bool
  | [] => true
  | c :: cs =>
    match cs with
    | [] => !(is_hy c)
    | _ :: _ => last_not_hy cs

/-- A character that survives `normalize_name` unchanged: allowed and
not an upper-case letter. -/
def canon_char (c : Char) : Bool :=
  is_allowed c && !(65 ≤ c.toNat && c.toNat ≤ 90)

/-- A string left fixed by `normalize_name`. -/
def canonical (l : List Char) : Bool :=
  l.all canon_char && no_double_hy l && head_not_hy l && last_not_hy l

/-- Python `s.split(sep)` for a one-character separator: splitting the
empty string yields `[[]]`, exactly as `"".split(':') == ['']`. -/
def split_ch (sep : Char) : List Char → List (List Char)
  | [] => [[]]
  | c :: cs =>
    if c = sep then [] :: split_ch sep cs
    else
      match split_ch sep cs with
      | [] => [[c]]
      | p :: ps => (c :: p) :: ps

/-- Python `str.strip()` (whitespace at both ends). -/
def strip_ws (l : List Char) : List Char :=
  trim_by is_ws l

/-- Source `_parse_building` (create_switch.py lines 132-136): split the
building name on `:`; field 0 (stripped) is the building number, field 1
(stripped) the abbreviation; an absent field falls back to the whole
raw name, stripped. -/
def parse_building (name : List Char) : List Char × List Char :=
  let parts := split_ch ':' name
  let bldg_num := if 1 ≤ parts.length then strip_ws (parts.getD 0 []) else strip_ws name
  let bldg_abbrev := if 2 ≤ parts.length then strip_ws (parts.getD 1 []) else strip_ws name
  (bldg_num, bldg_abbrev)

/-- Source `_parse_room` (create_switch.py lines 138-142): field 1 (stripped)
is the room number with the whole raw name as fallback; field 2
(stripped) is the k-designation with `""` as fallback. -/
def parse_room (name : List Char) : List Char × List Char :=
  let parts := split_ch ':' name
  let room_num := if 2 ≤ parts.length then strip_ws (parts.getD 1 []) else strip_ws name
  let k_designation := if 3 ≤ parts.length then strip_ws (parts.getD 2 []) else []
  (room_num, k_designation)

/-- Source `_base_name_parts` (create_switch.py lines 144-150): the ordered
token list; the k-designation is appended only when non-empty (Python
truthiness of the stripped string). -/
def base_name_parts (building room : List Char) : List (List Char) :=
  let bn := parse_building building
  let rn := parse_room room
  [bn.1, bn.2, rn.1] ++ (if rn.2 ≠ [] then [rn.2] else [])

/-- Decimal digit list of `n`, most significant first; fuel-structured
so that it reduces in the kernel (the fuel `n+1` always suffices). -/
def nat_digits_aux : Nat → Nat → List Char → List Char
  | 0, _, acc => acc
  | fuel + 1, n, acc =>
    let d := Char.ofNat (48 + n % 10)
    if n < 10 then d :: acc else nat_digits_aux fuel (n / 10) (d :: acc)

/-- Python `str(n)` for a natural number. -/
def nat_digits (n : Nat) : List Char :=
  nat_digits_aux (n + 1) n []

/-- Python `int(s)` on a string of ASCII digits. -/
def digits_to_nat (l : List Char) : Nat :=
  l.foldl (fun a c => a * 10 + (c.toNat - 48)) 0

/-- Strip `p` from the front of `n`, returning the remainder, or `none`
when `p` is not an initial segment of `n`. -/
def drop_pre : List Char → List Char → Option (List Char)
  | [], n => some n
  | _ :: _, [] => none
  | p :: ps, c :: cs => if p = c then drop_pre ps cs else none

/-- Does the string end in the two characters `".1"` (Python
`s.endswith(".1")`). -/
def ends_with_dot_one (l : List Char) : Bool :=
  match l.reverse with
  | a :: b :: _ => a = '1' && b = '.'
  | _ => false

/-- One candidate name run through
`re.fullmatch(rf"{re.escape(base_prefix)}(\d+)(?:\.1)?", name, flags=re.IGNORECASE)`
followed by `int(m.group(1))` (create_switch.py lines 156-159): both
sides are lower-cased (ASCII model of `re.IGNORECASE`), the escaped
base must be an initial segment, an optional trailing `".1"` is
removed, and the remainder must be a non-empty digit run, whose value
is returned.  The parse is deterministic because `.` is not a digit;
`int` cannot fail on a `\d+` group, so the source's `ValueError` guard
is dead and has no counterpart here. -/
def seq_match (pre name : List Char) : Option Nat :=
  match drop_pre (lower_all pre) (lower_all name) with
  | none => none
  | some rest =>
    let core := if ends_with_dot_one rest then rest.take (rest.length - 2) else rest
    if core ≠ [] ∧ core.all is_digit_ch then some (digits_to_nat core) else none

/-- The matching relation of the allocator's regex, stated structurally
as in the spec: `name` matches `pre + n` optionally followed by `".1"`,
case-insensitively, where `n` is written as a non-empty digit run. -/
def spec_matches (pre name : List Char) (n : Nat) : Prop :=
  ∃ ds, ds ≠ [] ∧ ds.all is_digit_ch = true ∧ digits_to_nat ds = n ∧
    (lower_all name = lower_all pre ++ ds ∨
     lower_all name = lower_all pre ++ ds ++ ['.', '1'])

/-- One iteration of the `max_n` loop of `_auto_role_code`
(lines 155-163): keep the larger of the accumulator and the matched
number, ignoring non-matching names. -/
def max_seq_step (pre : List Char) (acc : Nat) (nm : List Char) : Nat :=
  match seq_match pre nm with
  | some n => if n > acc then n else acc
  | none => acc

/-- The `max_n` scan of `_auto_role_code` (lines 154-163): the largest
matched sequence number over the location's device names, `0` when none
matched. -/
def max_seq (pre : List Char) (names : List (List Char)) : Nat :=
  names.foldl (max_seq_step pre) 0

/-- The number in the string `_auto_role_code` returns
(`f"as{max_n + 1 if max_n else 1}"`, line 164). -/
def auto_role_num (pre : List Char) (names : List (List Char)) : Nat :=
  let m := max_seq pre names
  if m = 0 then 1 else m + 1

/-- Translation of `base_prefix = "-".join(base_parts) + "-as"` (line 153). -/
def auto_role_pre (parts : List (List Char)) : List Char :=
  List.intercalate ['-'] parts ++ ['-', 'a', 's']

/-- Source `_auto_role_code` (lines 152-164), the returned string. -/
def auto_role_code (pre : List Char) (names : List (List Char)) : List Char :=
  'a' :: 's' :: nat_digits (auto_role_num pre names)

/-- Translation of `re.sub(r'[^A-Za-z0-9]+', '', role_code_text).lower() or "as1"`
(line 170). -/
def role_code_clean (rc : List Char) : List Char :=
  let c := lower_all (rc.filter is_alnum)
  if c = [] then ['a', 's', '1'] else c

/-- Source `_suggest_name` (lines 166-174): compose the hierarchy tokens, pick
the role code (auto-allocated when the operator left it blank, Python
falsiness of `role_code_text`), clean it, join with hyphens and
normalize.  `room_names` is the collaborator's device-name listing for
the room, consumed by the allocator. -/
def suggest_name (building room role_code : List Char)
    (room_names : List (List Char)) : List Char :=
  let parts := base_name_parts building room
  let rc_text := if role_code = [] then auto_role_code (auto_role_pre parts) room_names
    else role_code
  let rcc := role_code_clean rc_text
  normalize_name (List.intercalate ['-'] (parts ++ [rcc]))

/-- Python `s.split(sep, 1)` restricted to what RenameVCMembers.py
line 48 consumes: `some (before, after)` at the first separator, `none`
when the separator does not occur (in which case the source's `[1]`
indexing raises `IndexError`). -/
def split_once (sep : Char) : List Char → Option (List Char × List Char)
  | [] => none
  | c :: cs =>
    if c = sep then some ([], cs)
    else
      match split_once sep cs with
      | none => none
      | some p => some (c :: p.1, p.2)

/-- Translation of `member.name.split('.', 1)[1]`: everything after the first `.`
(meaningful only under `(split_once '.' name).isSome`). -/
def suffix_after_dot (name : List Char) : List Char :=
  ((split_once '.' name).getD ([], [])).2

/-- A virtual-chassis member device: its name and `vc_position`. -/
structure Member where
  name : List Char
  pos : Nat
deriving DecidableEq

/-- Ascending insertion used to model
`Device.objects.filter(virtual_chassis=vc).order_by("vc_position")`. -/
def insert_by_pos (m : Member) : List Member → List Member
  | [] => [m]
  | x :: xs => if m.pos < x.pos then m :: x :: xs else x :: insert_by_pos m xs

/-- Sort the member list ascending by `vc_position` (stable; the store's
order among equal positions is unspecified anyway). -/
def sort_by_pos (ms : List Member) : List Member :=
  ms.foldr insert_by_pos []

/-- The five hyphen-delimited fields of the rename pattern
`^\d{4}-[a-z0-9]{3,6}-[a-z0-9]+-\d[k]-[a-z0-9]{1,3}$`
(RenameVCMembers.py line 31).  None of the pattern's character classes
contains `-`, and the pattern is anchored at both ends, so the regex
accepts exactly the strings with five hyphen-separated fields of these
shapes; `\d` is modelled as ASCII `[0-9]`. -/
def fields_ok (fs : List (List Char)) : Bool :=
  match fs with
  | [f0, f1, f2, f3, f4] =>
    (decide (f0.length = 4) && f0.all is_digit_ch) &&
    (decide (3 ≤ f1.length) && decide (f1.length ≤ 6) && f1.all is_lower_alnum) &&
    (decide (1 ≤ f2.length) && f2.all is_lower_alnum) &&
    (match f3 with
     | [d, k] => is_digit_ch d && decide (k = 'k')
     | _ => false) &&
    (decide (1 ≤ f4.length) && decide (f4.length ≤ 3) && f4.all is_lower_alnum)
  | _ => false

/-- Translation of `re.match(pattern, new_name)` truthiness for the pattern above.
Python's `$` also matches just before a trailing newline, so a name
that is the pattern followed by a single final `'\n'` is accepted too;
the second disjunct models that corner of `re` exactly. -/
def rename_pattern (s : List Char) : Bool :=
  fields_ok (split_ch '-' s) ||
  (match s.getLast? with
   | some c => if c = '\n' then fields_ok (split_ch '-' s.dropLast) else false
   | none => false)

/-- The member loop of `RenameVCMembers.run` (lines 46-57): walk the
ordered members; for each, everything after the first `.` of its
current name becomes the suffix appended to the new base; a member name
without a `.` raises (`IndexError`) at that member, leaving the renames
already performed committed and the rest unprocessed.  Returns the
committed `(old, new)` rename pairs and the name of the failing member,
if any. -/
def rename_members (new_name : List Char) :
    List Member → List (List Char × List Char) × Option (List Char)
  | [] => ([], none)
  | m :: ms =>
    match split_once '.' m.name with
    | none => ([], some m.name)
    | some p =>
      let rest := rename_members new_name ms
      ((m.name, new_name ++ '.' :: p.2) :: rest.1, rest.2)

/-- Whether `needle` is an initial segment of `hay`. -/
def is_pre : List Char → List Char → Bool
  | [], _ => true
  | _ :: _, [] => false
  | a :: as, b :: bs => a = b && is_pre as bs

/-- Python substring containment `needle in hay`. -/
def contains_sub (needle : List Char) : List Char → Bool
  | [] => is_pre needle []
  | c :: t => is_pre needle (c :: t) || contains_sub needle t

/-- Translation of `model.model.lower().endswith((".1", ".2", ".3", ".4"))`
(create_switch.py line 221). -/
def ends_variant_suffix (l : List Char) : Bool :=
  match l.reverse with
  | a :: b :: _ => (b = '.') && (a = '1' || a = '2' || a = '3' || a = '4')
  | _ => false

/-- Source `_validate_name`'s structural regex
`re.fullmatch(r'[A-Za-z0-9][A-Za-z0-9\-]{1,62}', name)` (line 177):
leading alphanumeric, then 1 to 62 characters drawn from alphanumerics
and hyphen (total length 2-63). -/
def valid_name (l : List Char) : Bool :=
  match l with
  | [] => false
  | c :: cs =>
    is_alnum c && decide (1 ≤ cs.length) && decide (cs.length ≤ 62) &&
      cs.all is_allowed

/-- A subnet record (`Prefix`): its network address as a 32-bit natural,
its mask length, and the VLAN it is associated with. -/
structure Subnet where
  net : Nat
  len : Nat
  vlan : Nat
deriving DecidableEq

/-- An address `h` falls inside the subnet: the top `len` bits agree
(inclusive containment, `net_contains_or_equals`). -/
def covers (s : Subnet) (h : Nat) : Bool :=
  h / 2 ^ (32 - s.len) == s.net / 2 ^ (32 - s.len)

/-- Strict containment (`net_contains`): a host address is strictly
inside every covering subnet shorter than /32, and never strictly
inside a /32. -/
def strict_covers (s : Subnet) (h : Nat) : Bool :=
  covers s h && decide (s.len < 32)

/-- Lines 292-295: `Prefix.objects.filter(vlan=.., net_contains=..)
.first() or Prefix.objects.filter(vlan=.., net_contains_or_equals=..)
.first()` — the first strictly-containing subnet of the VLAN, and when
there is none, the first inclusively-containing one. -/
def first_covering (subs : List Subnet) (v h : Nat) : Option Subnet :=
  match subs.find? (fun s => s.vlan == v && strict_covers s h) with
  | some s => some s
  | none => subs.find? (fun s => s.vlan == v && covers s h)

/-- The operator-supplied inputs of `CreateSwitch.run`, with the two
checks that only consult objects outside the modelled store (the VLAN
group/location comparison of lines 210-216) summarized as the boolean
they amount to, and the management address as the already-parsed host
(`none` when `ip_address` raised on the text, line 252-255; the
claims under verification never concern the textual parse itself). -/
structure RunInput where
  building_name : List Char
  room_name : List Char
  manufacturer_name : List Char
  model_name : List Char
  role_code : List Char
  name_mode : List Char
  custom_name : List Char
  vc_choice : List Char
  mgmt_vlan : Nat
  mgmt_ip : Option Nat
  vlan_group_ok : Bool
deriving DecidableEq

/-- The slice of the inventory store the run consults:
whether the `Active` status and the `BLDG_L2-Access` role exist,
the device names at the chosen room (the allocator's scan),
all device names (the uniqueness check), the `(host, mask_length)`
address records, the subnet records, and whether the `".1"` DeviceType
variant of the chosen model exists (lines 260-264). -/
structure Store where
  status_active_exists : Bool
  role_exists : Bool
  room_device_names : List (List Char)
  all_device_names : List (List Char)
  ip_records : List (Nat × Nat)
  subnets : List Subnet
  variant_model_exists : Bool
deriving DecidableEq

/-- Lines 231-237: the suggested name is computed first; with naming
mode `"manual"` and a truthy (non-empty) custom name, the whitespace-
stripped custom name is used instead; otherwise the suggestion. -/
def candidate_base (inp : RunInput) (st : Store) : List Char :=
  let suggested := suggest_name inp.building_name inp.room_name inp.role_code
    st.room_device_names
  if inp.name_mode = "manual".data ∧ inp.custom_name ≠ [] then
    strip_ws inp.custom_name
  else suggested

/-- Lines 244-250: with a virtual chassis requested, append `".1"` to
the base unless it already ends with it, in which case the device keeps
its name and the base for the chassis record drops the last two
characters (`base_name[:-2]`).  Returns
`(device_name, base_name-after)`. -/
def finalize_names (vc_yes : Bool) (base : List Char) : List Char × List Char :=
  if vc_yes then
    if ends_with_dot_one base then (base, base.take (base.length - 2))
    else (base ++ ['.', '1'], base)
  else (base, base)

/-- Lines 282-285: `get_or_create(name=vc_name, defaults={"master":
device})` followed by `if not vc_obj.master_id or vc_obj.master_id !=
device.id: vc_obj.master = device`.  `existing` is `none` when no
chassis of that name exists, otherwise the current master reference.
The result is the chassis master after the block. -/
def ensure_master (device : Nat) (existing : Option (Option Nat)) : Option Nat :=
  let m0 : Option Nat :=
    match existing with
    | none => some device
    | some m => m
  if m0 = none ∨ m0 ≠ some device then some device else m0

/-- Lines 286-289: `if not device.virtual_chassis_id or
device.virtual_chassis_id != vc_obj.id or device.vc_position != 1:`
then both are (re)assigned.  The result is the device's
`(virtual_chassis, vc_position)` after the block. -/
def ensure_device_vc (cur_vc : Option Nat) (cur_pos : Option Nat)
    (vc_id : Nat) : Option Nat × Option Nat :=
  if cur_vc = none ∨ cur_vc ≠ some vc_id ∨ cur_pos ≠ some 1 then
    (some vc_id, some 1)
  else (cur_vc, cur_pos)

/-- Which `ValueError` a run raised, by the constraint that failed. -/
inductive RunError
  | status_missing
  | vlan_scope
  | not_cisco
  | variant_model
  | role_missing
  | invalid_name
  | name_conflict
  | bad_ip
  | ip_in_use
  | no_covering_sub
  | ip_mask_in_use
deriving DecidableEq

/-- Net effect of one `CreateSwitch.run` invocation: the error raised
(if any), whether the device record had been created by then, the
created device's name, the chassis name and the device's chassis
position (when a chassis was requested), whether the `".1"` DeviceType
variant was used, and the `(host, mask)` finally stored and set
primary. -/
structure RunResult where
  error : Option RunError
  created : Bool
  device_name : Option (List Char)
  cluster_name : Option (List Char)
  vc_position : Option Nat
  used_variant : Bool
  stored_ip : Option (Nat × Nat)
deriving DecidableEq

/-- A run aborted before the device record was created. -/
def mk_err (e : RunError) : RunResult :=
  ⟨some e, false, none, none, none, false, none⟩

/-- Lines 244-320 after the uniqueness check: name finalization, address
parse result, the `host`-only in-use check (line 257), device creation,
chassis formation (the net effect of `ensure_master`/`ensure_device_vc`
on a freshly created device: master = device, position = 1), the
covering-subnet lookup, the `(host, mask)` re-check at the covering
subnet's length (line 305), and the final binding.  The two errors
after device creation leave `created = true` with nothing stored, as in
the source, where those `ValueError`s are raised after
`Device.objects.create`. -/
def provision_after_name (inp : RunInput) (st : Store) (base : List Char) :
    RunResult :=
  let vc_yes : Bool := inp.vc_choice == "yes".data
  let fin := finalize_names vc_yes base
  match inp.mgmt_ip with
  | none => mk_err .bad_ip
  | some host =>
    if st.ip_records.any (fun r => r.1 == host) then mk_err .ip_in_use
    else
      let cluster := if vc_yes then some fin.2 else none
      let pos : Option Nat := if vc_yes then some 1 else none
      match first_covering st.subnets inp.mgmt_vlan host with
      | none =>
        ⟨some .no_covering_sub, true, some fin.1, cluster, pos,
          st.variant_model_exists, none⟩
      | some s =>
        if (host, s.len) ∈ st.ip_records then
          ⟨some .ip_mask_in_use, true, some fin.1, cluster, pos,
            st.variant_model_exists, none⟩
        else
          ⟨none, true, some fin.1, cluster, pos,
            st.variant_model_exists, some (host, s.len)⟩

/-- Source `CreateSwitch.run` (lines 194-320), in source order: the `Active`
status lookup, the VLAN-group/building check, the Cisco manufacturer
filter, the base-model (no `.1`-`.4` suffix) check, the role lookup,
name suggestion/choice, the structural name check, the uniqueness check
on both the candidate and its `".1"` variant, then the provisioning
steps of `provision_after_name`. -/
def create_switch_run (inp : RunInput) (st : Store) : RunResult :=
  if st.status_active_exists = false then mk_err .status_missing
  else if inp.vlan_group_ok = false then mk_err .vlan_scope
  else if contains_sub "cisco".data (lower_all inp.manufacturer_name) = false then
    mk_err .not_cisco
  else if ends_variant_suffix (lower_all inp.model_name) = true then
    mk_err .variant_model
  else if st.role_exists = false then mk_err .role_missing
  else
    let base := candidate_base inp st
    if valid_name base = false then mk_err .invalid_name
    else if base ∈ st.all_device_names ∨
        (base ++ ['.', '1']) ∈ st.all_device_names then
      mk_err .name_conflict
    else provision_after_name inp st base

/-- Outcome of one `RenameVCMembers.run` invocation. -/
structure RenameResult where
  pattern_ok : Bool
  vc_name_after : List Char
  renamed : List (List Char × List Char)
  failed_member : Option (List Char)
deriving DecidableEq

/-- Source `RenameVCMembers.run` (lines 29-59): validate the new name against
the organizational pattern (a failure raises `ValidationError` before
anything is touched, so the virtual chassis keeps its name and no
member is renamed); on success the virtual chassis is renamed and saved
first, then the members are processed in `vc_position` order. -/
def rename_vc_run (vc_name new_name : List Char) (members : List Member) :
    RenameResult :=
  if rename_pattern new_name then
    let r := rename_members new_name (sort_by_pos members)
    ⟨true, new_name, r.1, r.2⟩
  else ⟨false, vc_name, [], none⟩

end NautobotJobs

namespace NautobotJobs

theorem char_toLower_of_upper (c : Char) (h1 : 65 ≤ c.toNat) (h2 : c.toNat ≤ 90) :
    (Char.toLower c).toNat = c.toNat + 32 := by
  simp only [Char.toLower]
  rw [if_pos ⟨h1, h2⟩]
  have hv : (c.toNat + 32).isValidChar := Or.inl (by omega)
  rw [Char.ofNat, dif_pos hv]
  rfl

theorem char_toLower_of_not_upper (c : Char) (h : ¬ (65 ≤ c.toNat ∧ c.toNat ≤ 90)) :
    Char.toLower c = c := by
  simp only [Char.toLower]
  rw [if_neg h]

theorem is_hy_toLower (c : Char) : is_hy (Char.toLower c) = is_hy c := by
  by_cases h : 65 ≤ c.toNat ∧ c.toNat ≤ 90
  · have h32 := char_toLower_of_upper c h.1 h.2
    simp only [is_hy] at *
    rw [h32]
    have : ¬ (c.toNat + 32 = 45) := by omega
    have : ¬ (c.toNat = 45) := by omega
    simp_all
  · rw [char_toLower_of_not_upper c h]

theorem is_allowed_iff (c : Char) : is_allowed c = true ↔
    ((65 ≤ c.toNat ∧ c.toNat ≤ 90) ∨ (97 ≤ c.toNat ∧ c.toNat ≤ 122) ∨
     (48 ≤ c.toNat ∧ c.toNat ≤ 57) ∨ c.toNat = 45) := by
  simp only [is_allowed, is_alnum, Bool.or_eq_true, Bool.and_eq_true,
    decide_eq_true_eq, beq_iff_eq]
  omega

theorem canon_char_iff (c : Char) : canon_char c = true ↔
    ((97 ≤ c.toNat ∧ c.toNat ≤ 122) ∨ (48 ≤ c.toNat ∧ c.toNat ≤ 57) ∨
     c.toNat = 45) := by
  simp only [canon_char, is_allowed, is_alnum, Bool.or_eq_true, Bool.and_eq_true,
    Bool.not_eq_true', Bool.and_eq_false_iff, decide_eq_true_eq,
    decide_eq_false_iff_not, beq_iff_eq]
  omega

theorem canon_char_toLower (c : Char) (h : is_allowed c = true) :
    canon_char (Char.toLower c) = true := by
  rw [is_allowed_iff] at h
  by_cases hu : 65 ≤ c.toNat ∧ c.toNat ≤ 90
  · have h32 := char_toLower_of_upper c hu.1 hu.2
    rw [canon_char_iff, h32]
    omega
  · rw [char_toLower_of_not_upper c hu, canon_char_iff]
    omega

theorem char_toLower_of_canon (c : Char) (h : canon_char c = true) :
    Char.toLower c = c := by
  apply char_toLower_of_not_upper
  rw [canon_char_iff] at h
  omega

theorem eq_hyphen_of_is_hy (c : Char) (h : is_hy c = true) : c = '-' := by
  simp only [is_hy, beq_iff_eq] at h
  exact Char.eq_of_val_eq (UInt32.ext h)

theorem strip_all_allowed (l : List Char) :
    (strip_disallowed l).all is_allowed = true := by
  simp only [strip_disallowed, List.all_eq_true]
  intro a ha
  exact (List.mem_filter.mp ha).2

theorem strip_id_of_allowed (l : List Char) (h : l.all is_allowed = true) :
    strip_disallowed l = l := by
  rw [List.all_eq_true] at h
  exact List.filter_eq_self.mpr h

theorem no_double_cons (c : Char) (l : List Char) (h : no_double_hy l = true)
    (h2 : is_hy c = false ∨ head_not_hy l = true) :
    no_double_hy (c :: l) = true := by
  cases l with
  | nil => rfl
  | cons d rest =>
    simp only [no_double_hy, head_not_hy, Bool.and_eq_true, Bool.not_eq_true',
      Bool.and_eq_false_iff] at *
    rcases h2 with h2 | h2
    · exact ⟨Or.inl h2, h⟩
    · exact ⟨Or.inr h2, h⟩

theorem no_double_tail (c : Char) (l : List Char)
    (h : no_double_hy (c :: l) = true) : no_double_hy l = true := by
  cases l with
  | nil => rfl
  | cons d rest =>
    simp only [no_double_hy, Bool.and_eq_true] at h
    exact h.2

theorem collapse_aux_all_allowed (l : List Char) (h : l.all is_allowed = true) :
    ∀ b, (collapse_aux b l).all is_allowed = true := by
  induction l with
  | nil => intro b; rfl
  | cons c cs ih =>
    intro b
    simp only [List.all_cons, Bool.and_eq_true] at h
    cases hc : is_hy c with
    | true =>
      cases b with
      | true =>
        simp only [collapse_aux, hc, if_true]
        exact ih h.2 true
      | false =>
        simp only [collapse_aux, hc, if_true, Bool.false_eq_true, if_false,
          List.all_cons, Bool.and_eq_true]
        exact ⟨by decide, ih h.2 true⟩
    | false =>
      simp only [collapse_aux, hc, Bool.false_eq_true, if_false,
        List.all_cons, Bool.and_eq_true]
      exact ⟨h.1, ih h.2 false⟩

theorem collapse_aux_no_double (l : List Char) :
    ∀ b, no_double_hy (collapse_aux b l) = true ∧
      head_not_hy (collapse_aux true l) = true := by
  induction l with
  | nil => intro b; exact ⟨by trivial, by trivial⟩
  | cons c cs ih =>
    intro b
    cases hc : is_hy c with
    | true =>
      constructor
      · cases b with
        | true =>
          simp only [collapse_aux, hc, if_true]
          exact (ih true).1
        | false =>
          simp only [collapse_aux, hc, if_true, Bool.false_eq_true, if_false]
          exact no_double_cons '-' _ (ih true).1 (Or.inr (ih true).2)
      · simp only [collapse_aux, hc, if_true]
        exact (ih true).2
    | false =>
      constructor
      · simp only [collapse_aux, hc, Bool.false_eq_true, if_false]
        exact no_double_cons c _ (ih false).1 (Or.inl hc)
      · simp only [collapse_aux, hc, Bool.false_eq_true, if_false,
          head_not_hy, Bool.not_eq_true']

theorem collapse_aux_id (l : List Char) (h : no_double_hy l = true) :
    collapse_aux false l = l ∧
      (head_not_hy l = true → collapse_aux true l = l) := by
  induction l with
  | nil => exact ⟨rfl, fun _ => rfl⟩
  | cons c cs ih =>
    have htl := no_double_tail c cs h
    have ihcs := ih htl
    constructor
    · cases hc : is_hy c with
      | true =>
        simp only [collapse_aux, hc, if_true, Bool.false_eq_true, if_false]
        have hhead : head_not_hy cs = true := by
          cases cs with
          | nil => rfl
          | cons d rest =>
            simp only [no_double_hy, Bool.and_eq_true, Bool.not_eq_true',
              Bool.and_eq_false_iff] at h
            simp only [head_not_hy, Bool.not_eq_true']
            rcases h.1 with h1 | h1
            · rw [hc] at h1; exact absurd h1 (by simp)
            · exact h1
        rw [ihcs.2 hhead, eq_hyphen_of_is_hy c hc]
      | false =>
        simp only [collapse_aux, hc, Bool.false_eq_true, if_false]
        rw [ihcs.1]
    · intro hh
      have hc : is_hy c = false := by
        simp only [head_not_hy, Bool.not_eq_true'] at hh
        exact hh
      simp only [collapse_aux, hc, Bool.false_eq_true, if_false]
      rw [ihcs.1]

theorem drop_trailing_all (p q : Char → Bool) (l : List Char)
    (h : l.all q = true) : (drop_trailing p l).all q = true := by
  induction l with
  | nil => rfl
  | cons c cs ih =>
    simp only [List.all_cons, Bool.and_eq_true] at h
    simp only [drop_trailing]
    cases hd : drop_trailing p cs with
    | nil =>
      by_cases hc : p c = true
      · rw [if_pos hc]; rfl
      · rw [if_neg hc]; simp [h.1]
    | cons d rest =>
      have := ih h.2
      rw [hd] at this
      simp only [List.all_cons, Bool.and_eq_true] at this ⊢
      exact ⟨h.1, this⟩

theorem drop_trailing_shape (p : Char → Bool) (c : Char) (cs : List Char) :
    drop_trailing p (c :: cs) = [] ∨
      ∃ r, drop_trailing p (c :: cs) = c :: r := by
  simp only [drop_trailing]
  cases drop_trailing p cs with
  | nil =>
    by_cases hc : p c = true
    · rw [if_pos hc]; exact Or.inl rfl
    · rw [if_neg hc]; exact Or.inr ⟨[], rfl⟩
  | cons d rest => exact Or.inr ⟨d :: rest, rfl⟩

theorem head_not_hy_drop_trailing (p : Char → Bool) (l : List Char)
    (h : head_not_hy l = true) : head_not_hy (drop_trailing p l) = true := by
  cases l with
  | nil => rfl
  | cons c cs =>
    rcases drop_trailing_shape p c cs with hs | ⟨r, hs⟩
    · rw [hs]; rfl
    · rw [hs]
      simp only [head_not_hy] at *
      exact h

theorem no_double_drop_trailing (p : Char → Bool) (l : List Char)
    (h : no_double_hy l = true) : no_double_hy (drop_trailing p l) = true := by
  induction l with
  | nil => rfl
  | cons c cs ih =>
    have hrec := ih (no_double_tail c cs h)
    simp only [drop_trailing]
    cases hd : drop_trailing p cs with
    | nil =>
      by_cases hc : p c = true
      · rw [if_pos hc]; rfl
      · rw [if_neg hc]; rfl
    | cons d rest =>
      rw [hd] at hrec
      apply no_double_cons _ _ hrec
      cases cs with
      | nil => simp [drop_trailing] at hd
      | cons e es =>
        rcases drop_trailing_shape p e es with hs | ⟨r, hs⟩
        · rw [hs] at hd; exact absurd hd (by simp)
        · rw [hs] at hd
          injection hd with hd1 hd2
          simp only [no_double_hy, Bool.and_eq_true, Bool.not_eq_true',
            Bool.and_eq_false_iff] at h
          simp only [head_not_hy, Bool.not_eq_true', ← hd1]
          rcases h.1 with h1 | h1
          · exact Or.inl h1
          · exact Or.inr h1

theorem last_not_hy_cons (c : Char) (l : List Char) (h : l ≠ []) :
    last_not_hy (c :: l) = last_not_hy l := by
  cases l with
  | nil => exact absurd rfl h
  | cons d rest => rfl

theorem last_not_hy_drop_trailing (l : List Char) :
    last_not_hy (drop_trailing is_hy l) = true := by
  induction l with
  | nil => rfl
  | cons c cs ih =>
    simp only [drop_trailing]
    cases hd : drop_trailing is_hy cs with
    | nil =>
      by_cases hc : is_hy c = true
      · rw [if_pos hc]; rfl
      · rw [if_neg hc]
        simp only [last_not_hy, Bool.not_eq_true']
        exact Bool.not_eq_true _ ▸ hc
    | cons d rest =>
      rw [hd] at ih
      rw [last_not_hy_cons c (d :: rest) (by simp)]
      exact ih

theorem drop_trailing_id (l : List Char) (h : last_not_hy l = true) :
    drop_trailing is_hy l = l := by
  induction l with
  | nil => rfl
  | cons c cs ih =>
    simp only [drop_trailing]
    cases cs with
    | nil =>
      simp only [last_not_hy, Bool.not_eq_true'] at h
      simp only [drop_trailing]
      rw [if_neg (by simp [h])]
    | cons d rest =>
      rw [last_not_hy_cons c (d :: rest) (by simp)] at h
      rw [ih h]

theorem head_not_hy_dropWhile (l : List Char) :
    head_not_hy (l.dropWhile is_hy) = true := by
  induction l with
  | nil => rfl
  | cons c cs ih =>
    cases hc : is_hy c with
    | true =>
      simp only [List.dropWhile, hc]
      exact ih
    | false =>
      simp only [List.dropWhile, hc, head_not_hy, Bool.not_eq_true']

theorem no_double_dropWhile (l : List Char) (h : no_double_hy l = true) :
    no_double_hy (l.dropWhile is_hy) = true := by
  induction l with
  | nil => rfl
  | cons c cs ih =>
    cases hc : is_hy c with
    | true =>
      simp only [List.dropWhile, hc]
      exact ih (no_double_tail c cs h)
    | false =>
      simp only [List.dropWhile, hc]
      exact h

theorem all_dropWhile (p q : Char → Bool) (l : List Char)
    (h : l.all q = true) : (l.dropWhile p).all q = true := by
  induction l with
  | nil => rfl
  | cons c cs ih =>
    simp only [List.all_cons, Bool.and_eq_true] at h
    cases hc : p c with
    | true =>
      simp only [List.dropWhile, hc]
      exact ih h.2
    | false =>
      simp only [List.dropWhile, hc, List.all_cons, Bool.and_eq_true]
      exact ⟨h.1, h.2⟩

theorem dropWhile_id (l : List Char) (h : head_not_hy l = true) :
    l.dropWhile is_hy = l := by
  cases l with
  | nil => rfl
  | cons c cs =>
    simp only [head_not_hy, Bool.not_eq_true'] at h
    simp only [List.dropWhile, h]

theorem lower_all_all_canon (l : List Char) (h : l.all is_allowed = true) :
    (lower_all l).all canon_char = true := by
  simp only [lower_all, List.all_map, List.all_eq_true] at *
  intro a ha
  exact canon_char_toLower a (h a ha)

theorem lower_all_id_of_canon (l : List Char) (h : l.all canon_char = true) :
    lower_all l = l := by
  induction l with
  | nil => rfl
  | cons c cs ih =>
    simp only [List.all_cons, Bool.and_eq_true] at h
    simp only [lower_all, List.map_cons]
    rw [char_toLower_of_canon c h.1]
    exact congrArg _ (ih h.2)

theorem head_not_hy_lower (l : List Char) :
    head_not_hy (lower_all l) = head_not_hy l := by
  cases l with
  | nil => rfl
  | cons c cs =>
    simp only [lower_all, List.map_cons, head_not_hy, is_hy_toLower]

theorem no_double_cons_cons (x y : Char) (l : List Char) :
    no_double_hy (x :: y :: l) =
      ((!(is_hy x && is_hy y)) && no_double_hy (y :: l)) := rfl

theorem no_double_lower (l : List Char) :
    no_double_hy (lower_all l) = no_double_hy l := by
  induction l with
  | nil => rfl
  | cons c cs ih =>
    cases cs with
    | nil => rfl
    | cons d rest =>
      have hlo : lower_all (c :: d :: rest) =
          Char.toLower c :: Char.toLower d :: List.map Char.toLower rest := rfl
      have hlo2 : Char.toLower d :: List.map Char.toLower rest =
          lower_all (d :: rest) := rfl
      rw [hlo, no_double_cons_cons, no_double_cons_cons, is_hy_toLower,
        is_hy_toLower, hlo2, ih]

theorem last_not_hy_lower (l : List Char) :
    last_not_hy (lower_all l) = last_not_hy l := by
  induction l with
  | nil => rfl
  | cons c cs ih =>
    cases cs with
    | nil =>
      show last_not_hy [Char.toLower c] = last_not_hy [c]
      simp only [last_not_hy, is_hy_toLower]
    | cons d rest =>
      have hlo : lower_all (c :: d :: rest) =
          Char.toLower c :: lower_all (d :: rest) := rfl
      rw [hlo, last_not_hy_cons _ _ (by simp [lower_all]),
        last_not_hy_cons c (d :: rest) (by simp), ih]

theorem normalize_canonical (l : List Char) :
    canonical (normalize_name l) = true := by
  simp only [normalize_name, canonical, Bool.and_eq_true]
  have h1 := strip_all_allowed l
  have h2 := collapse_aux_all_allowed _ h1 false
  have h3 := (collapse_aux_no_double (strip_disallowed l) false).1
  refine ⟨⟨⟨?_, ?_⟩, ?_⟩, ?_⟩
  · exact lower_all_all_canon _
      (drop_trailing_all _ _ _ (all_dropWhile _ _ _ h2))
  · rw [no_double_lower]
    exact no_double_drop_trailing _ _ (no_double_dropWhile _ h3)
  · rw [head_not_hy_lower]
    exact head_not_hy_drop_trailing _ _ (head_not_hy_dropWhile _)
  · rw [last_not_hy_lower]
    exact last_not_hy_drop_trailing _

theorem normalize_id_of_canonical (l : List Char) (h : canonical l = true) :
    normalize_name l = l := by
  simp only [canonical, Bool.and_eq_true] at h
  obtain ⟨⟨⟨hcanon, hnd⟩, hhd⟩, hlast⟩ := h
  have hallow : l.all is_allowed = true := by
    rw [List.all_eq_true] at *
    intro a ha
    have := hcanon a ha
    simp only [canon_char, Bool.and_eq_true] at this
    exact this.1
  simp only [normalize_name, collapse_hyphens, trim_by]
  rw [strip_id_of_allowed l hallow, (collapse_aux_id l hnd).1,
    dropWhile_id l hhd, drop_trailing_id l hlast,
    lower_all_id_of_canon l hcanon]

theorem normalize_idem_aux (l : List Char) :
    normalize_name (normalize_name l) = normalize_name l :=
  normalize_id_of_canonical _ (normalize_canonical l)

theorem drop_pre_iff (p : List Char) : ∀ n r,
    drop_pre p n = some r ↔ n = p ++ r := by
  induction p with
  | nil =>
    intro n r
    simp only [drop_pre, Option.some.injEq, List.nil_append]
  | cons a as ih =>
    intro n r
    cases n with
    | nil =>
      have hdef : drop_pre (a :: as) ([] : List Char) = none := rfl
      rw [hdef]
      simp
    | cons c cs =>
      have hdef : drop_pre (a :: as) (c :: cs) =
          if a = c then drop_pre as cs else none := rfl
      rw [hdef]
      by_cases hac : a = c
      · rw [if_pos hac, ih]
        subst hac
        simp
      · rw [if_neg hac]
        simp only [List.cons_append, List.cons.injEq]
        constructor
        · intro h; exact absurd h (by simp)
        · rintro ⟨h1, h2⟩; exact absurd h1.symm hac

theorem ends_with_dot_one_iff (l : List Char) :
    ends_with_dot_one l = true ↔ ∃ t, l = t ++ ['.', '1'] := by
  constructor
  · intro h
    unfold ends_with_dot_one at h
    cases hr : l.reverse with
    | nil => rw [hr] at h; exact absurd h (by simp)
    | cons a as =>
      cases as with
      | nil => rw [hr] at h; exact absurd h (by simp)
      | cons b bs =>
        rw [hr] at h
        simp only [Bool.and_eq_true, decide_eq_true_eq] at h
        refine ⟨bs.reverse, ?_⟩
        have : l = l.reverse.reverse := (List.reverse_reverse l).symm
        rw [this, hr, h.1, h.2]
        simp
  · rintro ⟨t, rfl⟩
    unfold ends_with_dot_one
    rw [List.reverse_append]
    simp

theorem take_of_append_dot_one (t : List Char) :
    (t ++ ['.', '1']).take ((t ++ ['.', '1']).length - 2) = t := by
  have hlen : (t ++ ['.', '1']).length - 2 = t.length := by
    simp
  rw [hlen]
  exact List.take_left t _

theorem dot_not_digit_of_all (ds : List Char) (t : List Char)
    (heq : ds = t ++ ['.', '1']) (hall : ds.all is_digit_ch = true) : False := by
  subst heq
  rw [List.all_append] at hall
  simp only [Bool.and_eq_true, List.all_cons] at hall
  exact absurd hall.2.1 (by simp [is_digit_ch])

theorem seq_match_iff (pre name : List Char) (k : Nat) :
    seq_match pre name = some k ↔ spec_matches pre name k := by
  constructor
  · intro h
    cases hdp : drop_pre (lower_all pre) (lower_all name) with
    | none =>
      simp only [seq_match, hdp] at h
      exact absurd h (by simp)
    | some rest =>
      simp only [seq_match, hdp] at h
      have hrest : lower_all name = lower_all pre ++ rest :=
        (drop_pre_iff _ _ _).mp hdp
      cases hend : ends_with_dot_one rest with
      | true =>
        obtain ⟨t, ht⟩ := (ends_with_dot_one_iff rest).mp hend
        simp only [hend, if_true] at h
        rw [ht, take_of_append_dot_one] at h
        by_cases hcond : t ≠ [] ∧ t.all is_digit_ch = true
        · rw [if_pos hcond] at h
          refine ⟨t, hcond.1, hcond.2, by simpa using h, Or.inr ?_⟩
          rw [hrest, ht, List.append_assoc]
        · rw [if_neg hcond] at h
          exact absurd h (by simp)
      | false =>
        simp only [hend, Bool.false_eq_true, if_false] at h
        by_cases hcond : rest ≠ [] ∧ rest.all is_digit_ch = true
        · rw [if_pos hcond] at h
          exact ⟨rest, hcond.1, hcond.2, by simpa using h, Or.inl hrest⟩
        · rw [if_neg hcond] at h
          exact absurd h (by simp)
  · rintro ⟨ds, hne, hdig, hval, hcase | hcase⟩
    · have hdp : drop_pre (lower_all pre) (lower_all name) = some ds :=
        (drop_pre_iff _ _ _).mpr hcase
      have hend : ends_with_dot_one ds = false := by
        cases hed : ends_with_dot_one ds with
        | false => rfl
        | true =>
          obtain ⟨t, ht⟩ := (ends_with_dot_one_iff ds).mp hed
          exact absurd (dot_not_digit_of_all ds t ht hdig) (by simp)
      simp only [seq_match, hdp, hend, Bool.false_eq_true, if_false]
      rw [if_pos ⟨hne, hdig⟩, hval]
    · have hdp : drop_pre (lower_all pre) (lower_all name) = some (ds ++ ['.', '1']) := by
        apply (drop_pre_iff _ _ _).mpr
        rw [hcase, List.append_assoc]
      have hend : ends_with_dot_one (ds ++ ['.', '1']) = true :=
        (ends_with_dot_one_iff _).mpr ⟨ds, rfl⟩
      simp only [seq_match, hdp, hend, if_true]
      rw [take_of_append_dot_one, if_pos ⟨hne, hdig⟩, hval]

theorem max_seq_step_none (pre : List Char) (acc : Nat) (nm : List Char)
    (h : seq_match pre nm = none) : max_seq_step pre acc nm = acc := by
  simp only [max_seq_step, h]

theorem max_seq_step_some (pre : List Char) (acc : Nat) (nm : List Char)
    (n : Nat) (h : seq_match pre nm = some n) :
    max_seq_step pre acc nm = if n > acc then n else acc := by
  simp only [max_seq_step, h]

theorem max_seq_acc_le (pre : List Char) (names : List (List Char)) :
    ∀ acc, acc ≤ names.foldl (max_seq_step pre) acc := by
  induction names with
  | nil => intro acc; exact Nat.le_refl acc
  | cons nm names ih =>
    intro acc
    simp only [List.foldl_cons]
    cases hsm : seq_match pre nm with
    | none =>
      rw [max_seq_step_none pre acc nm hsm]
      exact ih acc
    | some n =>
      rw [max_seq_step_some pre acc nm n hsm]
      by_cases hn : n > acc
      · rw [if_pos hn]
        exact Nat.le_trans (Nat.le_of_lt hn) (ih n)
      · rw [if_neg hn]
        exact ih acc

theorem max_seq_ub (pre : List Char) (names : List (List Char)) (m : Nat)
    (h : ∀ nm ∈ names, ∀ k, seq_match pre nm = some k → k ≤ m) :
    ∀ acc, acc ≤ m → names.foldl (max_seq_step pre) acc ≤ m := by
  induction names with
  | nil => intro acc hacc; exact hacc
  | cons nm names ih =>
    intro acc hacc
    simp only [List.foldl_cons]
    have hh : ∀ nm2 ∈ names, ∀ k, seq_match pre nm2 = some k → k ≤ m :=
      fun nm2 h2 k hk => h nm2 (List.mem_cons_of_mem _ h2) k hk
    cases hsm : seq_match pre nm with
    | none =>
      rw [max_seq_step_none pre acc nm hsm]
      exact ih hh acc hacc
    | some n =>
      have hn : n ≤ m := h nm (List.mem_cons_self _ _) n hsm
      rw [max_seq_step_some pre acc nm n hsm]
      by_cases hgt : n > acc
      · rw [if_pos hgt]; exact ih hh n hn
      · rw [if_neg hgt]; exact ih hh acc hacc

theorem le_max_seq_aux (pre : List Char) (names : List (List Char))
    (nm : List Char) (k : Nat) (hmem : nm ∈ names)
    (hk : seq_match pre nm = some k) :
    ∀ acc, k ≤ names.foldl (max_seq_step pre) acc := by
  induction names with
  | nil => exact absurd hmem (List.not_mem_nil nm)
  | cons nm2 names ih =>
    intro acc
    simp only [List.foldl_cons]
    rcases List.mem_cons.mp hmem with heq | hmem2
    · subst heq
      rw [max_seq_step_some pre acc nm k hk]
      by_cases hgt : k > acc
      · rw [if_pos hgt]
        exact max_seq_acc_le pre names k
      · rw [if_neg hgt]
        exact Nat.le_trans (by omega) (max_seq_acc_le pre names acc)
    · cases hsm : seq_match pre nm2 with
      | none =>
        rw [max_seq_step_none pre acc nm2 hsm]
        exact ih hmem2 acc
      | some n =>
        rw [max_seq_step_some pre acc nm2 n hsm]
        by_cases hgt : n > acc
        · rw [if_pos hgt]; exact ih hmem2 n
        · rw [if_neg hgt]; exact ih hmem2 acc

theorem le_max_seq (pre : List Char) (names : List (List Char))
    (nm : List Char) (k : Nat) (hmem : nm ∈ names)
    (hk : seq_match pre nm = some k) : k ≤ max_seq pre names :=
  le_max_seq_aux pre names nm k hmem hk 0

theorem max_seq_zero_of_none (pre : List Char) (names : List (List Char))
    (h : ∀ nm ∈ names, seq_match pre nm = none) : max_seq pre names = 0 := by
  unfold max_seq
  induction names with
  | nil => rfl
  | cons nm names ih =>
    simp only [List.foldl_cons,
      max_seq_step_none pre 0 nm (h nm (List.mem_cons_self _ _))]
    exact ih fun nm2 h2 => h nm2 (List.mem_cons_of_mem _ h2)

theorem split_ch_length_pos (sep : Char) (l : List Char) :
    1 ≤ (split_ch sep l).length := by
  induction l with
  | nil => exact Nat.le_refl 1
  | cons c cs ih =>
    by_cases hc : c = sep
    · simp only [split_ch, if_pos hc, List.length_cons]
      omega
    · simp only [split_ch, if_neg hc]
      cases hsp : split_ch sep cs with
      | nil => simp
      | cons p ps => simp

theorem split_ch_single (sep : Char) (name : List Char)
    (h : ¬ 2 ≤ (split_ch sep name).length) : split_ch sep name = [name] := by
  induction name with
  | nil => rfl
  | cons c cs ih =>
    by_cases hc : c = sep
    · exfalso
      apply h
      simp only [split_ch, if_pos hc, List.length_cons]
      have := split_ch_length_pos sep cs
      omega
    · simp only [split_ch, if_neg hc] at h ⊢
      cases hsp : split_ch sep cs with
      | nil => exact absurd (hsp ▸ split_ch_length_pos sep cs) (by simp)
      | cons p ps =>
        rw [hsp] at h
        have hps : ps = [] := by
          simp only [List.length_cons] at h
          cases ps with
          | nil => rfl
          | cons q qs => exfalso; apply h; simp
        subst hps
        have : split_ch sep cs = [cs] := by
          apply ih
          rw [hsp]
          simp
        rw [hsp] at this
        injection this with h1
        rw [h1]

end NautobotJobs

namespace NautobotJobs

/-- C1: for every location-scoped name prefix and every list of existing
device names at that location, `_auto_role_code`'s sequence number is
`max + 1` where `max` is the largest integer `n` such that some
existing name matches `prefix + n` optionally followed by `".1"`
(case-insensitively, with non-integer candidates skipped by the match),
and is `1` when no existing name matches; in particular it is `4` for
existing names `{"0123-engr-105-as1", "0123-engr-105-as3"}` with
prefix `"0123-engr-105-as"`, and `1` for no existing names. -/
theorem C1_sequence_allocator :
    (∀ pre names, (∀ nm ∈ names, ∀ k, ¬ spec_matches pre nm k) →
      auto_role_num pre names = 1) ∧
    (∀ pre names m, (∃ nm ∈ names, spec_matches pre nm m) →
      (∀ nm ∈ names, ∀ k, spec_matches pre nm k → k ≤ m) →
      auto_role_num pre names = m + 1) ∧
    auto_role_num "0123-engr-105-as".data
      ["0123-engr-105-as1".data, "0123-engr-105-as3".data] = 4 ∧
    auto_role_num "0123-engr-105-as".data [] = 1 := by
  refine ⟨?_, ?_, by decide, by decide⟩
  · intro pre names h
    have hnone : ∀ nm ∈ names, seq_match pre nm = none := by
      intro nm hm
      cases hsm : seq_match pre nm with
      | none => rfl
      | some k =>
        exact absurd ((seq_match_iff pre nm k).mp hsm) (h nm hm k)
    simp [auto_role_num, max_seq_zero_of_none pre names hnone]
  · intro pre names m hex hub
    obtain ⟨nm, hmem, hspec⟩ := hex
    have hle : m ≤ max_seq pre names :=
      le_max_seq pre names nm m hmem ((seq_match_iff pre nm m).mpr hspec)
    have hge : max_seq pre names ≤ m := by
      apply max_seq_ub pre names m ?_ 0 (Nat.zero_le m)
      intro nm2 h2 k hk
      exact hub nm2 h2 k ((seq_match_iff pre nm2 k).mp hk)
    have heq : max_seq pre names = m := Nat.le_antisymm hge hle
    simp only [auto_role_num, heq]
    split
    · omega
    · rfl

theorem C1_sequence_allocator_app :
    auto_role_num "p".data ["p3".data] = 3 + 1 := by
  refine C1_sequence_allocator.2.1 "p".data ["p3".data] 3
    ⟨"p3".data, by simp, (seq_match_iff _ _ _).mp (by decide)⟩ ?_
  intro nm hm k hk
  have hnm : nm = "p3".data := by simpa using hm
  subst hnm
  have h1 := (seq_match_iff "p".data "p3".data k).mpr hk
  have h3 : seq_match "p".data "p3".data = some 3 := by decide
  rw [h3] at h1
  have := Option.some.inj h1
  omega

/-- C8: the hierarchy-name composer splits building/room identifiers on
`:` and trims whitespace; it is a total function that never fails; when
a field index is absent the entire raw (stripped) string stands in for
that field; and a missing k-designation is omitted from the token list
entirely rather than contributing an empty token.  The concrete cases
instantiate the well-formed pair `("0123: ENGR", "X: 105: 1k")` and the
malformed colon-free pair `("ENGR", "105")`. -/
theorem C8_hierarchy_name_composer :
    (∀ name, ¬ 2 ≤ (split_ch ':' name).length →
      parse_building name = (strip_ws name, strip_ws name)) ∧
    (∀ name, ¬ 2 ≤ (split_ch ':' name).length →
      (parse_room name).1 = strip_ws name) ∧
    (∀ name, ¬ 3 ≤ (split_ch ':' name).length →
      (parse_room name).2 = []) ∧
    (∀ b r, (parse_room r).2 = [] → base_name_parts b r =
      [(parse_building b).1, (parse_building b).2, (parse_room r).1]) ∧
    (∀ b r, (parse_room r).2 ≠ [] → base_name_parts b r =
      [(parse_building b).1, (parse_building b).2, (parse_room r).1,
        (parse_room r).2]) ∧
    base_name_parts "0123: ENGR".data "X: 105: 1k".data =
      ["0123".data, "ENGR".data, "105".data, "1k".data] ∧
    base_name_parts "ENGR".data "105".data =
      ["ENGR".data, "ENGR".data, "105".data] := by
  refine ⟨?_, ?_, ?_, ?_, ?_, by decide, by decide⟩
  · intro name h
    have hsp := split_ch_single ':' name h
    simp [parse_building, hsp]
  · intro name h
    simp only [parse_room]
    rw [if_neg h]
  · intro name h
    simp only [parse_room]
    rw [if_neg h]
  · intro b r h
    simp [base_name_parts, h]
  · intro b r h
    simp [base_name_parts, h]

theorem C8_hierarchy_name_composer_app :
    parse_building "bldg".data = (strip_ws "bldg".data, strip_ws "bldg".data) ∧
    base_name_parts "a: b".data "x: 9".data =
      [(parse_building "a: b".data).1, (parse_building "a: b".data).2,
        (parse_room "x: 9".data).1] :=
  ⟨C8_hierarchy_name_composer.1 "bldg".data (by decide),
   C8_hierarchy_name_composer.2.2.2.1 "a: b".data "x: 9".data (by decide)⟩

/-- C9: the normalization of `_suggest_name` (strip characters outside
`[A-Za-z0-9-]`, collapse repeated hyphens, trim leading/trailing
hyphens, lower-case) is idempotent: normalizing twice equals
normalizing once, for every input string. -/
theorem C9_normalize_idempotent (x : List Char) :
    normalize_name (normalize_name x) = normalize_name x :=
  normalize_idem_aux x

theorem mem_insert_by_pos (m x : Member) (l : List Member) :
    x ∈ insert_by_pos m l ↔ x = m ∨ x ∈ l := by
  induction l with
  | nil => simp [insert_by_pos]
  | cons y ys ih =>
    simp only [insert_by_pos]
    by_cases hp : m.pos < y.pos
    · rw [if_pos hp]
      simp
    · rw [if_neg hp]
      simp only [List.mem_cons, ih]
      tauto

theorem mem_sort_by_pos (x : Member) (ms : List Member) :
    x ∈ sort_by_pos ms ↔ x ∈ ms := by
  unfold sort_by_pos
  induction ms with
  | nil => simp
  | cons m rest ih =>
    simp only [List.foldr_cons, mem_insert_by_pos, List.mem_cons, ih]

theorem rename_members_complete (n : List Char) (ms : List Member)
    (h : ∀ m ∈ ms, (split_once '.' m.name).isSome = true) :
    rename_members n ms =
      (ms.map (fun m => (m.name, n ++ '.' :: suffix_after_dot m.name)),
        none) := by
  induction ms with
  | nil => rfl
  | cons m rest ih =>
    have hm := h m (List.mem_cons_self _ _)
    cases hsp : split_once '.' m.name with
    | none => rw [hsp] at hm; exact absurd hm (by simp)
    | some p =>
      have hrest := ih fun m2 h2 => h m2 (List.mem_cons_of_mem _ h2)
      simp only [rename_members, hsp, hrest, List.map_cons, Prod.mk.injEq,
        List.cons.injEq]
      simp [suffix_after_dot, hsp]

/-- C5: for every cluster rename whose new base name passes the pattern
check, the cluster record takes the new name and then every member, in
`vc_position` order, is renamed to the new base followed by `"."`
followed by everything after the first `"."` of its current name (this
needs each member name to contain a `"."`; `split_once` is `some`).
The two concrete cascades instantiate the spec's example: members
`"old-base.1"`, `"old-base.2"` become `"new-base.1"`, `"new-base.2"`,
and when the second member's rename step fails the first rename stays
committed and the failure carries the second member's name. -/
theorem C5_cluster_rename_cascade :
    (∀ vc_name new_name members,
      rename_pattern new_name = true →
      (∀ m ∈ members, (split_once '.' m.name).isSome = true) →
      rename_vc_run vc_name new_name members =
        ⟨true, new_name,
          (sort_by_pos members).map
            (fun m => (m.name, new_name ++ '.' :: suffix_after_dot m.name)),
          none⟩) ∧
    rename_members "new-base".data
      [⟨"old-base.1".data, 1⟩, ⟨"old-base.2".data, 2⟩] =
      ([("old-base.1".data, "new-base.1".data),
        ("old-base.2".data, "new-base.2".data)], none) ∧
    rename_members "new-base".data
      [⟨"old-base.1".data, 1⟩, ⟨"old-base".data, 2⟩] =
      ([("old-base.1".data, "new-base.1".data)],
        some "old-base".data) := by
  refine ⟨?_, by decide, by decide⟩
  intro vc_name new_name members hpat hdots
  have hsorted : ∀ m ∈ sort_by_pos members, (split_once '.' m.name).isSome = true :=
    fun m hm => hdots m ((mem_sort_by_pos m members).mp hm)
  simp only [rename_vc_run, if_pos hpat,
    rename_members_complete new_name (sort_by_pos members) hsorted]

theorem C5_cluster_rename_cascade_app :
    rename_vc_run "old".data "0123-engr-105-1k-as2".data
      [⟨"old.2".data, 2⟩, ⟨"old.1".data, 1⟩] =
      ⟨true, "0123-engr-105-1k-as2".data,
        [("old.1".data, "0123-engr-105-1k-as2.1".data),
         ("old.2".data, "0123-engr-105-1k-as2.2".data)], none⟩ := by
  rw [C5_cluster_rename_cascade.1 "old".data "0123-engr-105-1k-as2".data
    [⟨"old.2".data, 2⟩, ⟨"old.1".data, 1⟩] (by decide) (by decide)]
  decide

/-- C6: a cluster rename whose new name fails the fixed organizational
pattern (four-digit building code, 3-6 character abbreviation, room
token, density-class token, role token, hyphen-delimited) raises the
validation error before any mutation: the cluster keeps its name and no
member is renamed.  The concrete cases: a convention-compliant name
passes, while `"new-base"` and an upper-case variant fail the
pattern. -/
theorem C6_rename_pattern_guard :
    (∀ vc_name new_name members, rename_pattern new_name = false →
      rename_vc_run vc_name new_name members =
        ⟨false, vc_name, [], none⟩) ∧
    rename_pattern "0123-engr-105-1k-as1".data = true ∧
    rename_pattern "new-base".data = false ∧
    rename_pattern "0123-ENGR-105-1k-as1".data = false := by
  refine ⟨?_, by decide, by decide, by decide⟩
  intro vc_name new_name members h
  simp only [rename_vc_run, h, Bool.false_eq_true, if_false]

theorem C6_rename_pattern_guard_app :
    rename_vc_run "oldvc".data "bad name".data [⟨"oldvc.1".data, 1⟩] =
      ⟨false, "oldvc".data, [], none⟩ :=
  C6_rename_pattern_guard.1 "oldvc".data "bad name".data
    [⟨"oldvc.1".data, 1⟩] (by decide)

/-- C10: the per-member suffix extraction indexes the result of
splitting at the first `"."`, which is defined only when the member's
name contains a `"."`; under the precondition that every member name
contains one, the error branch is unreachable and the cascade processes
every member; the cluster record itself is renamed before the member
loop, so a member without a `"."` fails its rename step after the
cluster rename is already committed, as the concrete dot-free member
`"x"` shows. -/
theorem C10_suffix_extraction_safety :
    (∀ n ms, (∀ m ∈ ms, (split_once '.' m.name).isSome = true) →
      (rename_members n ms).2 = none ∧
      (rename_members n ms).1.length = ms.length) ∧
    (∀ vc_name new_name members, rename_pattern new_name = true →
      (rename_vc_run vc_name new_name members).vc_name_after = new_name) ∧
    rename_vc_run "old".data "0123-engr-105-1k-as1".data [⟨"x".data, 1⟩] =
      ⟨true, "0123-engr-105-1k-as1".data, [], some "x".data⟩ := by
  refine ⟨?_, ?_, by decide⟩
  · intro n ms h
    rw [rename_members_complete n ms h]
    simp
  · intro vc_name new_name members hpat
    simp only [rename_vc_run, if_pos hpat]

theorem C10_suffix_extraction_safety_app :
    (rename_members "n".data [⟨"a.b".data, 1⟩]).2 = none ∧
    (rename_members "n".data [⟨"a.b".data, 1⟩]).1.length = 1 :=
  C10_suffix_extraction_safety.1 "n".data [⟨"a.b".data, 1⟩] (by decide)

theorem run_reaches_provision (inp : RunInput) (st : Store)
    (h1 : st.status_active_exists = true) (h2 : inp.vlan_group_ok = true)
    (h3 : contains_sub "cisco".data (lower_all inp.manufacturer_name) = true)
    (h4 : ends_variant_suffix (lower_all inp.model_name) = false)
    (h5 : st.role_exists = true)
    (h6 : valid_name (candidate_base inp st) = true)
    (h7 : ¬ (candidate_base inp st ∈ st.all_device_names ∨
      (candidate_base inp st ++ ['.', '1']) ∈ st.all_device_names)) :
    create_switch_run inp st =
      provision_after_name inp st (candidate_base inp st) := by
  simp only [create_switch_run]
  rw [if_neg (by simp [h1]), if_neg (by simp [h2]), if_neg (by simp [h3]),
    if_neg (by simp [h4]), if_neg (by simp [h5]), if_neg (by simp [h6]),
    if_neg h7]

theorem provision_error_ne_conflict (inp : RunInput) (st : Store)
    (base : List Char) :
    (provision_after_name inp st base).error ≠ some RunError.name_conflict := by
  simp only [provision_after_name]
  cases hip : inp.mgmt_ip with
  | none => simp [mk_err]
  | some host =>
    by_cases hany : st.ip_records.any (fun r => r.1 == host) = true
    · simp [hany, mk_err]
    · simp only [hany, Bool.false_eq_true, if_false]
      cases hfc : first_covering st.subnets inp.mgmt_vlan host with
      | none => simp
      | some s =>
        by_cases hmem : (host, s.len) ∈ st.ip_records
        · simp [hmem]
        · simp [hmem]

theorem provision_vc_fields (inp : RunInput) (st : Store) (base : List Char)
    (hvc : inp.vc_choice = "yes".data)
    (hcr : (provision_after_name inp st base).created = true) :
    (provision_after_name inp st base).vc_position = some 1 ∧
    (provision_after_name inp st base).device_name =
      some (finalize_names true base).1 ∧
    (provision_after_name inp st base).cluster_name =
      some (finalize_names true base).2 := by
  have hb : (inp.vc_choice == "yes".data) = true := by simp [hvc]
  cases hip : inp.mgmt_ip with
  | none =>
    simp only [provision_after_name, hip] at hcr
    exact absurd hcr (by simp [mk_err])
  | some host =>
    cases hany : st.ip_records.any (fun r => r.1 == host) with
    | true =>
      simp only [provision_after_name, hip, hany, if_true] at hcr
      exact absurd hcr (by simp [mk_err])
    | false =>
      cases hfc : first_covering st.subnets inp.mgmt_vlan host with
      | none =>
        simp only [provision_after_name, hb, if_true, hip, hany,
          Bool.false_eq_true, if_false, hfc]
        exact ⟨trivial, trivial, trivial⟩
      | some s =>
        by_cases hmem : (host, s.len) ∈ st.ip_records
        · simp only [provision_after_name, hb, if_true, hip, hany,
            Bool.false_eq_true, if_false, hfc, if_pos hmem]
          exact ⟨trivial, trivial, trivial⟩
        · simp only [provision_after_name, hb, if_true, hip, hany,
            Bool.false_eq_true, if_false, hfc, if_neg hmem]
          exact ⟨trivial, trivial, trivial⟩

/-- C2: with cluster formation requested, a base name not ending in
`".1"` yields device name `base ++ ".1"`, a base already ending in
`".1"` keeps the device name while the chassis base drops the suffix
(so the device name always equals the chassis base plus one `".1"`,
never doubled); the ensure-blocks leave the chassis master at the
created device and the device at chassis position 1 from any prior
state; and every run that created its device with `vc == "yes"` records
position 1, device name `(finalize_names true base).1` and chassis name
`(finalize_names true base).2` for the validated base. -/
theorem C2_cluster_formation :
    (∀ base, ends_with_dot_one base = false →
      finalize_names true base = (base ++ ['.', '1'], base)) ∧
    (∀ base, ends_with_dot_one base = true →
      finalize_names true base = (base, base.take (base.length - 2))) ∧
    (∀ base, (finalize_names true base).1 =
      (finalize_names true base).2 ++ ['.', '1']) ∧
    (∀ device existing, ensure_master device existing = some device) ∧
    (∀ cur_vc cur_pos vc_id,
      ensure_device_vc cur_vc cur_pos vc_id = (some vc_id, some 1)) ∧
    (∀ inp st, inp.vc_choice = "yes".data →
      (create_switch_run inp st).created = true →
      (create_switch_run inp st).vc_position = some 1 ∧
      (create_switch_run inp st).device_name =
        some (finalize_names true (candidate_base inp st)).1 ∧
      (create_switch_run inp st).cluster_name =
        some (finalize_names true (candidate_base inp st)).2) := by
  refine ⟨?_, ?_, ?_, ?_, ?_, ?_⟩
  · intro base h
    simp [finalize_names, h]
  · intro base h
    simp [finalize_names, h]
  · intro base
    cases hend : ends_with_dot_one base with
    | false => simp [finalize_names, hend]
    | true =>
      obtain ⟨t, ht⟩ := (ends_with_dot_one_iff base).mp hend
      simp only [finalize_names, hend, if_true]
      rw [ht, take_of_append_dot_one]
  · intro device existing
    cases existing with
    | none => simp [ensure_master]
    | some m =>
      by_cases hm : m = some device
      · simp [ensure_master, hm]
      · simp [ensure_master, hm]
  · intro cur_vc cur_pos vc_id
    by_cases h : cur_vc = none ∨ cur_vc ≠ some vc_id ∨ cur_pos ≠ some 1
    · simp [ensure_device_vc, h]
    · push_neg at h
      simp [ensure_device_vc, h.2.1, h.2.2]
  · intro inp st hvc hcr
    simp only [create_switch_run] at hcr ⊢
    split_ifs at hcr ⊢
    all_goals try simp only [mk_err, Bool.false_eq_true] at hcr
    exact provision_vc_fields inp st _ hvc hcr

theorem C2_cluster_formation_app :
    (create_switch_run
      ⟨"0123: ENGR".data, "X: 105: 1k".data, "Cisco".data, "C9300".data,
        [], "manual".data, "bldg-as9".data, "yes".data, 7,
        some 167773450, true⟩
      ⟨true, true, [], [], [], [⟨167773440, 24, 7⟩], false⟩).vc_position =
        some 1 ∧
    (create_switch_run
      ⟨"0123: ENGR".data, "X: 105: 1k".data, "Cisco".data, "C9300".data,
        [], "manual".data, "bldg-as9".data, "yes".data, 7,
        some 167773450, true⟩
      ⟨true, true, [], [], [], [⟨167773440, 24, 7⟩], false⟩).device_name =
      some (finalize_names true (candidate_base
        ⟨"0123: ENGR".data, "X: 105: 1k".data, "Cisco".data, "C9300".data,
          [], "manual".data, "bldg-as9".data, "yes".data, 7,
          some 167773450, true⟩
        ⟨true, true, [], [], [], [⟨167773440, 24, 7⟩], false⟩)).1 ∧
    (create_switch_run
      ⟨"0123: ENGR".data, "X: 105: 1k".data, "Cisco".data, "C9300".data,
        [], "manual".data, "bldg-as9".data, "yes".data, 7,
        some 167773450, true⟩
      ⟨true, true, [], [], [], [⟨167773440, 24, 7⟩], false⟩).cluster_name =
      some (finalize_names true (candidate_base
        ⟨"0123: ENGR".data, "X: 105: 1k".data, "Cisco".data, "C9300".data,
          [], "manual".data, "bldg-as9".data, "yes".data, 7,
          some 167773450, true⟩
        ⟨true, true, [], [], [], [⟨167773440, 24, 7⟩], false⟩)).2 :=
  C2_cluster_formation.2.2.2.2.2
    ⟨"0123: ENGR".data, "X: 105: 1k".data, "Cisco".data, "C9300".data,
      [], "manual".data, "bldg-as9".data, "yes".data, 7,
      some 167773450, true⟩
    ⟨true, true, [], [], [], [⟨167773440, 24, 7⟩], false⟩
    (by decide) (by decide)

/-- C3: once a run reaches the uniqueness check (the earlier guards
pass and the candidate name is structurally valid), the run raises the
name-conflict error with no device created exactly when the candidate
name or its `".1"` variant already exists as a device name; when
neither exists the run never raises that error. -/
theorem C3_uniqueness_guard :
    ∀ inp st,
      st.status_active_exists = true → inp.vlan_group_ok = true →
      contains_sub "cisco".data (lower_all inp.manufacturer_name) = true →
      ends_variant_suffix (lower_all inp.model_name) = false →
      st.role_exists = true →
      valid_name (candidate_base inp st) = true →
      ((candidate_base inp st ∈ st.all_device_names ∨
        (candidate_base inp st ++ ['.', '1']) ∈ st.all_device_names) →
        create_switch_run inp st = mk_err RunError.name_conflict) ∧
      ((candidate_base inp st ∈ st.all_device_names ∨
        (candidate_base inp st ++ ['.', '1']) ∈ st.all_device_names) →
        (create_switch_run inp st).created = false) ∧
      (¬ (candidate_base inp st ∈ st.all_device_names ∨
        (candidate_base inp st ++ ['.', '1']) ∈ st.all_device_names) →
        (create_switch_run inp st).error ≠ some RunError.name_conflict) := by
  intro inp st h1 h2 h3 h4 h5 h6
  have hconfl : (candidate_base inp st ∈ st.all_device_names ∨
      (candidate_base inp st ++ ['.', '1']) ∈ st.all_device_names) →
      create_switch_run inp st = mk_err RunError.name_conflict := by
    intro hc
    simp only [create_switch_run]
    rw [if_neg (by simp [h1]), if_neg (by simp [h2]), if_neg (by simp [h3]),
      if_neg (by simp [h4]), if_neg (by simp [h5]), if_neg (by simp [h6]),
      if_pos hc]
  refine ⟨hconfl, ?_, ?_⟩
  · intro hc
    rw [hconfl hc]
    rfl
  · intro hnc
    rw [run_reaches_provision inp st h1 h2 h3 h4 h5 h6 hnc]
    exact provision_error_ne_conflict inp st _

theorem C3_uniqueness_guard_app :
    create_switch_run
      ⟨"0123: ENGR".data, "X: 105: 1k".data, "Cisco".data, "C9300".data,
        [], "manual".data, "bldg-as1".data, "no".data, 7,
        some 167773450, true⟩
      ⟨true, true, [], ["bldg-as1.1".data], [], [⟨167773440, 24, 7⟩],
        false⟩ = mk_err RunError.name_conflict :=
  (C3_uniqueness_guard
    ⟨"0123: ENGR".data, "X: 105: 1k".data, "Cisco".data, "C9300".data,
      [], "manual".data, "bldg-as1".data, "no".data, 7,
      some 167773450, true⟩
    ⟨true, true, [], ["bldg-as1.1".data], [], [⟨167773440, 24, 7⟩], false⟩
    (by decide) (by decide) (by decide) (by decide) (by decide)
    (by decide)).1 (by decide)

theorem strict_covers_covers (s : Subnet) (h : Nat)
    (hs : strict_covers s h = true) : covers s h = true := by
  simp only [strict_covers, Bool.and_eq_true] at hs
  exact hs.1

theorem first_covering_none_iff (subs : List Subnet) (v h : Nat) :
    first_covering subs v h = none ↔
      ∀ s ∈ subs, ¬ (s.vlan = v ∧ covers s h = true) := by
  constructor
  · intro hfc s hmem hsv
    cases h1 : subs.find? (fun s => s.vlan == v && strict_covers s h) with
    | some s2 =>
      simp only [first_covering, h1] at hfc
      exact Option.noConfusion hfc
    | none =>
      simp only [first_covering, h1] at hfc
      have := List.find?_eq_none.mp hfc s hmem
      simp only [Bool.and_eq_true, beq_iff_eq] at this
      exact this ⟨hsv.1, hsv.2⟩
  · intro hall
    cases h1 : subs.find? (fun s => s.vlan == v && strict_covers s h) with
    | some s2 =>
      exfalso
      have hp := List.find?_some h1
      have hmem := List.mem_of_find?_eq_some h1
      simp only [Bool.and_eq_true, beq_iff_eq] at hp
      exact hall s2 hmem ⟨hp.1, strict_covers_covers s2 h hp.2⟩
    | none =>
      simp only [first_covering, h1]
      rw [List.find?_eq_none]
      intro s hmem
      simp only [Bool.and_eq_true, beq_iff_eq, not_and]
      intro hv hcov
      exact hall s hmem ⟨hv, hcov⟩

theorem first_covering_some_props (subs : List Subnet) (v h : Nat)
    (s : Subnet) (hfc : first_covering subs v h = some s) :
    s.vlan = v ∧ covers s h = true := by
  cases h1 : subs.find? (fun s => s.vlan == v && strict_covers s h) with
  | some s2 =>
    simp only [first_covering, h1, Option.some.injEq] at hfc
    subst hfc
    have hp := List.find?_some h1
    simp only [Bool.and_eq_true, beq_iff_eq] at hp
    exact ⟨hp.1, strict_covers_covers _ h hp.2⟩
  | none =>
    simp only [first_covering, h1] at hfc
    have hp := List.find?_some hfc
    simp only [Bool.and_eq_true, beq_iff_eq] at hp
    exact hp

theorem first_covering_head (s : Subnet) (subs : List Subnet) (v h : Nat)
    (hv : s.vlan = v) (hs : strict_covers s h = true) :
    first_covering (s :: subs) v h = some s := by
  have hp : (fun s => s.vlan == v && strict_covers s h) s = true := by
    simp [hv, hs]
  have hfind : List.find? (fun s => s.vlan == v && strict_covers s h)
      (s :: subs) = some s := List.find?_cons_of_pos subs hp
  simp only [first_covering, hfind]

theorem provision_covering_behavior (inp : RunInput) (st : Store)
    (base : List Char) (host : Nat) (hip : inp.mgmt_ip = some host)
    (hany : st.ip_records.any (fun r => r.1 == host) = false) :
    (first_covering st.subnets inp.mgmt_vlan host = none →
      (provision_after_name inp st base).error = some RunError.no_covering_sub ∧
      (provision_after_name inp st base).stored_ip = none) ∧
    (∀ s, first_covering st.subnets inp.mgmt_vlan host = some s →
      (¬ (host, s.len) ∈ st.ip_records →
        (provision_after_name inp st base).error = none ∧
        (provision_after_name inp st base).stored_ip = some (host, s.len)) ∧
      ((host, s.len) ∈ st.ip_records →
        (provision_after_name inp st base).error = some RunError.ip_mask_in_use ∧
        (provision_after_name inp st base).stored_ip = none)) := by
  constructor
  · intro hfc
    simp only [provision_after_name, hip, hany, Bool.false_eq_true, if_false,
      hfc]
    exact ⟨by trivial, by trivial⟩
  · intro s hfc
    constructor
    · intro hmem
      simp only [provision_after_name, hip, hany, Bool.false_eq_true,
        if_false, hfc, if_neg hmem]
      exact ⟨by trivial, by trivial⟩
    · intro hmem
      simp only [provision_after_name, hip, hany, Bool.false_eq_true,
        if_false, hfc, if_pos hmem]
      exact ⟨by trivial, by trivial⟩

/-- C4: the management host is accepted exactly when some subnet record
of the chosen VLAN contains it: `first_covering` is `none` iff no such
record contains the host, every record it returns is a covering record
of the VLAN, and a strictly-covering record at the head of the listing
wins regardless of what follows (first match, not longest prefix).  On
acceptance the stored address pairs the host with the covering record's
mask length, re-checked against existing `(host, mask)` records before
creation; on no coverage the run raises the no-covering-subnet error
and stores nothing.  The concrete records instantiate subnet
`10.0.5.0/24` (net 167773440) with host `10.0.5.10` (167773450,
accepted, stored at /24) and host `10.0.9.10` (167774474, rejected). -/
theorem C4_subnet_containment :
    (∀ subs v h, first_covering subs v h = none ↔
      ∀ s ∈ subs, ¬ (s.vlan = v ∧ covers s h = true)) ∧
    (∀ subs v h s, first_covering subs v h = some s →
      s.vlan = v ∧ covers s h = true) ∧
    (∀ s subs v h, s.vlan = v → strict_covers s h = true →
      first_covering (s :: subs) v h = some s) ∧
    (∀ inp st base host, inp.mgmt_ip = some host →
      st.ip_records.any (fun r => r.1 == host) = false →
      (first_covering st.subnets inp.mgmt_vlan host = none →
        (provision_after_name inp st base).error =
          some RunError.no_covering_sub ∧
        (provision_after_name inp st base).stored_ip = none) ∧
      (∀ s, first_covering st.subnets inp.mgmt_vlan host = some s →
        (¬ (host, s.len) ∈ st.ip_records →
          (provision_after_name inp st base).error = none ∧
          (provision_after_name inp st base).stored_ip =
            some (host, s.len)) ∧
        ((host, s.len) ∈ st.ip_records →
          (provision_after_name inp st base).error =
            some RunError.ip_mask_in_use ∧
          (provision_after_name inp st base).stored_ip = none))) ∧
    first_covering [⟨167773440, 24, 7⟩] 7 167773450 =
      some ⟨167773440, 24, 7⟩ ∧
    first_covering [⟨167773440, 24, 7⟩] 7 167774474 = none := by
  refine ⟨first_covering_none_iff, first_covering_some_props,
    first_covering_head, ?_, by decide, by decide⟩
  intro inp st base host hip hany
  exact provision_covering_behavior inp st base host hip hany

theorem C4_subnet_containment_app :
    (provision_after_name
      ⟨"0123: ENGR".data, "X: 105: 1k".data, "Cisco".data, "C9300".data,
        [], "manual".data, "AB".data, "no".data, 7, some 167773450, true⟩
      ⟨true, true, [], [], [], [⟨167773440, 24, 7⟩], false⟩
      "ab".data).error = none ∧
    (provision_after_name
      ⟨"0123: ENGR".data, "X: 105: 1k".data, "Cisco".data, "C9300".data,
        [], "manual".data, "AB".data, "no".data, 7, some 167773450, true⟩
      ⟨true, true, [], [], [], [⟨167773440, 24, 7⟩], false⟩
      "ab".data).stored_ip = some (167773450, 24) :=
  ((C4_subnet_containment.2.2.2.1
    ⟨"0123: ENGR".data, "X: 105: 1k".data, "Cisco".data, "C9300".data,
      [], "manual".data, "AB".data, "no".data, 7, some 167773450, true⟩
    ⟨true, true, [], [], [], [⟨167773440, 24, 7⟩], false⟩
    "ab".data 167773450 (by decide) (by decide)).2
    ⟨167773440, 24, 7⟩ (by decide)).1 (by decide)

/-- C7 as stated is false: a provisioning run with naming mode
`"manual"` and custom name `"AB"` submits `"AB"` to the structural
check — custom names are only whitespace-stripped (line 233), never
normalized — and `"AB"` is not its own normalization (`"ab"`), yet the
run passes the structural check and completes without error. -/
theorem C7_counterexample_manual_name :
    candidate_base
      ⟨"0123: ENGR".data, "X: 105: 1k".data, "Cisco".data, "C9300".data,
        [], "manual".data, "AB".data, "no".data, 7, some 167773450, true⟩
      ⟨true, true, [], [], [], [⟨167773440, 24, 7⟩], false⟩ = "AB".data ∧
    normalize_name "AB".data ≠ "AB".data ∧
    (create_switch_run
      ⟨"0123: ENGR".data, "X: 105: 1k".data, "Cisco".data, "C9300".data,
        [], "manual".data, "AB".data, "no".data, 7, some 167773450, true⟩
      ⟨true, true, [], [], [], [⟨167773440, 24, 7⟩], false⟩).error =
      none := by
  refine ⟨by decide, by decide, by decide⟩

/-- C7 (amended): for every provisioning run in which the suggested
name is used — naming mode not `"manual"`, or a blank custom name —
the name submitted to the structural check equals its own
normalization, because `_suggest_name` applies the normalization once,
before the structural check; a manual custom name is only
whitespace-stripped and need not be canonical. -/
theorem C7_submitted_name_canonical :
    ∀ inp st, ¬ (inp.name_mode = "manual".data ∧ inp.custom_name ≠ []) →
      normalize_name (candidate_base inp st) = candidate_base inp st := by
  intro inp st h
  simp only [candidate_base, if_neg h, suggest_name]
  exact normalize_idem_aux _

theorem C7_submitted_name_canonical_app :
    normalize_name (candidate_base
      ⟨"0123: ENGR".data, "X: 105: 1k".data, "Cisco".data, "C9300".data,
        [], "auto".data, [], "no".data, 7, some 167773450, true⟩
      ⟨true, true, [], [], [], [⟨167773440, 24, 7⟩], false⟩) =
    candidate_base
      ⟨"0123: ENGR".data, "X: 105: 1k".data, "Cisco".data, "C9300".data,
        [], "auto".data, [], "no".data, 7, some 167773450, true⟩
      ⟨true, true, [], [], [], [⟨167773440, 24, 7⟩], false⟩ :=
  C7_submitted_name_canonical
    ⟨"0123: ENGR".data, "X: 105: 1k".data, "Cisco".data, "C9300".data,
      [], "auto".data, [], "no".data, 7, some 167773450, true⟩
    ⟨true, true, [], [], [], [⟨167773440, 24, 7⟩], false⟩
    (by decide)

end NautobotJobs
